import Mathlib

/- Verification of the text-input and incremental-search core of
   crates/gpui/examples/picker.rs, shallowly embedded in Lean.

   Strings are modelled as lists of Unicode scalar values (Rust `char`s);
   byte offsets are computed from each char's UTF-8 width, UTF-16 offsets
   from each char's UTF-16 width.  Fallible operations (Rust string-slice
   indexing, which panics off a char boundary or out of bounds) return
   `Option`.  Grapheme segmentation (the `unicode_segmentation` crate) is
   treated as a parameter: a segmentation is a list of nonempty char
   clusters whose concatenation is the content, and the boundary-motion
   functions consume exactly the start-offset list that
   `grapheme_indices(true)` produces. -/

/-- The UTF-8 byte width of a Unicode scalar value, as Rust's
`char::len_utf8`. -/
def rustLenUtf8 (c : Char) : Nat :=
  if c.toNat < 0x80 then 1
  else if c.toNat < 0x800 then 2
  else if c.toNat < 0x10000 then 3
  else 4

/-- The UTF-16 code-unit width of a Unicode scalar value, as Rust's
`char::len_utf16`. -/
def rustLenUtf16 (c : Char) : Nat :=
  if c.toNat < 0x10000 then 1 else 2

/-- The total UTF-8 byte length of a string, as Rust's `str::len`. -/
def utf8Length (l : List Char) : Nat := (l.map rustLenUtf8).sum

/-- The total UTF-16 code-unit length of a string. -/
def utf16Length (l : List Char) : Nat := (l.map rustLenUtf16).sum

theorem one_le_rustLenUtf8 (c : Char) : 1 ≤ rustLenUtf8 c := by
  unfold rustLenUtf8; split_ifs <;> decide

theorem one_le_rustLenUtf16 (c : Char) : 1 ≤ rustLenUtf16 c := by
  unfold rustLenUtf16; split_ifs <;> decide

@[simp] theorem utf8Length_nil : utf8Length [] = 0 := rfl

@[simp] theorem utf8Length_cons (c : Char) (l : List Char) :
    utf8Length (c :: l) = rustLenUtf8 c + utf8Length l := by
  simp [utf8Length]

theorem utf8Length_append (a b : List Char) :
    utf8Length (a ++ b) = utf8Length a + utf8Length b := by
  simp [utf8Length]

@[simp] theorem utf16Length_nil : utf16Length [] = 0 := rfl

@[simp] theorem utf16Length_cons (c : Char) (l : List Char) :
    utf16Length (c :: l) = rustLenUtf16 c + utf16Length l := by
  simp [utf16Length]

theorem utf8Length_pos_of_ne_nil {l : List Char} (h : l ≠ []) :
    1 ≤ utf8Length l := by
  cases l with
  | nil => exact absurd rfl h
  | cons c t =>
      have := one_le_rustLenUtf8 c
      simp [utf8Length_cons]; omega

/-- A byte offset is a valid char boundary of a string when it is the
UTF-8 length of some prefix of the string (this includes 0 and the full
length). -/
def IsCharBoundary (l : List Char) (n : Nat) : Prop :=
  ∃ p s, l = p ++ s ∧ n = utf8Length p

/-- The loop body of `TextInput::offset_from_utf16`: walk the chars,
stopping as soon as the accumulated UTF-16 count reaches the requested
offset, and return the accumulated UTF-8 count. -/
def offset_from_utf16_aux : List Char → Nat → Nat → Nat → Nat
  | [], _, u8, _ => u8
  | c :: rest, offset, u8, u16 =>
    if offset ≤ u16 then u8
    else offset_from_utf16_aux rest offset (u8 + rustLenUtf8 c) (u16 + rustLenUtf16 c)

/-- Rust `TextInput::offset_from_utf16` (picker.rs lines 174-187). -/
def offset_from_utf16 (content : List Char) (offset : Nat) : Nat :=
  offset_from_utf16_aux content offset 0 0

/-- The loop body of `TextInput::offset_to_utf16`: walk the chars,
stopping as soon as the accumulated UTF-8 count reaches the requested
offset, and return the accumulated UTF-16 count. -/
def offset_to_utf16_aux : List Char → Nat → Nat → Nat → Nat
  | [], _, _, u16 => u16
  | c :: rest, offset, u8, u16 =>
    if offset ≤ u8 then u16
    else offset_to_utf16_aux rest offset (u8 + rustLenUtf8 c) (u16 + rustLenUtf16 c)

/-- Rust `TextInput::offset_to_utf16` (picker.rs lines 189-202). -/
def offset_to_utf16 (content : List Char) (offset : Nat) : Nat :=
  offset_to_utf16_aux content offset 0 0

theorem offset_to_utf16_aux_eq (p : List Char) :
    ∀ (s : List Char) (u8 u16 : Nat),
      offset_to_utf16_aux (p ++ s) (u8 + utf8Length p) u8 u16 = u16 + utf16Length p := by
  induction p with
  | nil =>
      intro s u8 u16
      cases s with
      | nil => simp [offset_to_utf16_aux]
      | cons c t => simp [offset_to_utf16_aux]
  | cons c p ih =>
      intro s u8 u16
      have h1 := one_le_rustLenUtf8 c
      have hcond : ¬ (u8 + utf8Length (c :: p) ≤ u8) := by
        simp [utf8Length_cons]; omega
      simp only [List.cons_append, offset_to_utf16_aux, if_neg hcond, List.append_eq]
      have harg : u8 + utf8Length (c :: p) = (u8 + rustLenUtf8 c) + utf8Length p := by
        simp [utf8Length_cons]; omega
      rw [harg, ih s (u8 + rustLenUtf8 c) (u16 + rustLenUtf16 c)]
      simp [utf16Length_cons]; omega

theorem offset_from_utf16_aux_eq (p : List Char) :
    ∀ (s : List Char) (u8 u16 : Nat),
      offset_from_utf16_aux (p ++ s) (u16 + utf16Length p) u8 u16 = u8 + utf8Length p := by
  induction p with
  | nil =>
      intro s u8 u16
      cases s with
      | nil => simp [offset_from_utf16_aux]
      | cons c t => simp [offset_from_utf16_aux]
  | cons c p ih =>
      intro s u8 u16
      have h1 := one_le_rustLenUtf16 c
      have hcond : ¬ (u16 + utf16Length (c :: p) ≤ u16) := by
        simp [utf16Length_cons]; omega
      simp only [List.cons_append, offset_from_utf16_aux, if_neg hcond, List.append_eq]
      have harg : u16 + utf16Length (c :: p) = (u16 + rustLenUtf16 c) + utf16Length p := by
        simp [utf16Length_cons]; omega
      rw [harg, ih s (u8 + rustLenUtf8 c) (u16 + rustLenUtf16 c)]
      simp [utf8Length_cons]; omega

/-- Claim C3: for every content string and every valid char-boundary byte
offset x in [0, content.len()], `offset_from_utf16 (offset_to_utf16 x) = x`:
the UTF-8/UTF-16 offset translation round-trips on all valid boundaries. -/
theorem C3_utf16_round_trip (content : List Char) (x : Nat)
    (h : IsCharBoundary content x) :
    offset_from_utf16 content (offset_to_utf16 content x) = x := by
  obtain ⟨p, s, rfl, rfl⟩ := h
  unfold offset_to_utf16 offset_from_utf16
  have h1 : offset_to_utf16_aux (p ++ s) (utf8Length p) 0 0 = utf16Length p := by
    simpa using offset_to_utf16_aux_eq p s 0 0
  have h2 : offset_from_utf16_aux (p ++ s) (utf16Length p) 0 0 = utf8Length p := by
    simpa using offset_from_utf16_aux_eq p s 0 0
  rw [h1, h2]

/-- Witness for C3 on the concrete content "a€😀" (char widths 1, 3, 4
bytes and 1, 1, 2 UTF-16 units) at the boundary x = 4. -/
theorem C3_utf16_round_trip_witness :
    IsCharBoundary ("a€😀".toList) 4 ∧
      offset_from_utf16 ("a€😀".toList) (offset_to_utf16 ("a€😀".toList) 4) = 4 := by
  have hb : IsCharBoundary ("a€😀".toList) 4 := ⟨"a€".toList, "😀".toList, by decide, by decide⟩
  exact ⟨hb, C3_utf16_round_trip ("a€😀".toList) 4 hb⟩

/- Grapheme segmentation.  `unicode_segmentation`'s
`grapheme_indices(true)` yields, for each extended grapheme cluster of
the string in order, the byte offset at which the cluster starts.  We
model a segmentation as the list of clusters themselves (each a nonempty
list of chars whose concatenation is the content) and derive the index
list; the boundary-motion functions below consume only that index list,
exactly as the source does. -/

/-- Concatenation of a list of clusters back into the content string. -/
def flattenL : List (List Char) → List Char
  | [] => []
  | g :: gs => g ++ flattenL gs

@[simp] theorem flattenL_nil : flattenL [] = [] := rfl

@[simp] theorem flattenL_cons (g : List Char) (gs : List (List Char)) :
    flattenL (g :: gs) = g ++ flattenL gs := rfl

theorem flattenL_append (a b : List (List Char)) :
    flattenL (a ++ b) = flattenL a ++ flattenL b := by
  induction a with
  | nil => simp
  | cons g a ih => simp [ih]

/-- Running byte offsets of the cluster starts, beginning at `acc`. -/
def graphemeIndicesAux : List (List Char) → Nat → List Nat
  | [], _ => []
  | g :: gs, acc => acc :: graphemeIndicesAux gs (acc + utf8Length g)

/-- The byte start offsets produced by `content.grapheme_indices(true)`
for a segmentation `gs` of the content. -/
def graphemeIndices (gs : List (List Char)) : List Nat :=
  graphemeIndicesAux gs 0

/-- Rust `TextInput::previous_boundary` (picker.rs lines 212-218): the
last grapheme start strictly below `offset`, or 0. -/
def previous_boundary (gs : List (List Char)) (offset : Nat) : Nat :=
  (((graphemeIndices gs).reverse).find? (fun idx => decide (idx < offset))).getD 0

/-- Rust `TextInput::next_boundary` (picker.rs lines 220-225): the first
grapheme start strictly above `offset`, or the content length. -/
def next_boundary (gs : List (List Char)) (offset : Nat) : Nat :=
  ((graphemeIndices gs).find? (fun idx => decide (offset < idx))).getD (utf8Length (flattenL gs))

/-- A byte offset is a grapheme-cluster boundary when it starts one of
the clusters or is the total length of the content. -/
def IsGraphemeBoundary (gs : List (List Char)) (x : Nat) : Prop :=
  x ∈ graphemeIndices gs ∨ x = utf8Length (flattenL gs)

instance (gs : List (List Char)) (x : Nat) : Decidable (IsGraphemeBoundary gs x) := by
  unfold IsGraphemeBoundary; infer_instance

/-- The extended grapheme segmentation of strings all of whose clusters
are single characters; this is the true `unicode_segmentation`
segmentation for the plain ASCII-letter strings used in concrete
instances below (no newlines, no combining marks, no joiners). -/
def asciiSeg (l : List Char) : List (List Char) := l.map (fun c => [c])

/- The TextInput component (picker.rs lines 40-341).  Only the editing
core is embedded: `content`, `selected_range` (byte offsets) and
`selection_reversed`.  Layout caches, focus handles and mouse state are
rendering concerns with no bearing on the claims.  Operations that in
Rust slice the string (and would panic off a char boundary) return
`Option`; `cx.notify()` has no model-level effect. -/

structure TextInput where
  content : List Char
  selected_range : Nat × Nat
  selection_reversed : Bool
deriving DecidableEq

/-- Rust `TextInput::new` (picker.rs lines 52-63): empty content,
selection 0..0, not reversed. -/
def TextInput.new : TextInput :=
  { content := [], selected_range := (0, 0), selection_reversed := false }

/-- Rust slice `&s[..n]` on a string: the chars making up the first `n`
bytes, or `none` (a panic) when `n` is not a char boundary or is out of
bounds. -/
def takeBytes : List Char → Nat → Option (List Char)
  | _, 0 => some []
  | [], _ + 1 => none
  | c :: cs, n + 1 =>
    if rustLenUtf8 c ≤ n + 1 then
      (takeBytes cs (n + 1 - rustLenUtf8 c)).map (fun p => c :: p)
    else none

/-- Rust slice `&s[n..]` on a string: the chars after the first `n`
bytes, or `none` (a panic) when `n` is not a char boundary or is out of
bounds. -/
def dropBytes : List Char → Nat → Option (List Char)
  | l, 0 => some l
  | [], _ + 1 => none
  | c :: cs, n + 1 =>
    if rustLenUtf8 c ≤ n + 1 then dropBytes cs (n + 1 - rustLenUtf8 c)
    else none

theorem takeBytes_boundary (p : List Char) :
    ∀ s : List Char, takeBytes (p ++ s) (utf8Length p) = some p := by
  induction p with
  | nil => intro s; cases s <;> rfl
  | cons c p ih =>
      intro s
      have h1 := one_le_rustLenUtf8 c
      have hlen : utf8Length (c :: p) = rustLenUtf8 c + utf8Length p := utf8Length_cons c p
      obtain ⟨m, hm⟩ : ∃ m, utf8Length (c :: p) = m + 1 := ⟨utf8Length (c :: p) - 1, by omega⟩
      rw [hm, List.cons_append]
      have hle : rustLenUtf8 c ≤ m + 1 := by omega
      have hsub : m + 1 - rustLenUtf8 c = utf8Length p := by omega
      simp only [takeBytes, if_pos hle, hsub, ih s]; rfl

theorem dropBytes_boundary (p : List Char) :
    ∀ s : List Char, dropBytes (p ++ s) (utf8Length p) = some s := by
  induction p with
  | nil => intro s; cases s <;> rfl
  | cons c p ih =>
      intro s
      have h1 := one_le_rustLenUtf8 c
      obtain ⟨m, hm⟩ : ∃ m, utf8Length (c :: p) = m + 1 :=
        ⟨utf8Length (c :: p) - 1, by simp [utf8Length_cons]; omega⟩
      have hlen : utf8Length (c :: p) = rustLenUtf8 c + utf8Length p := utf8Length_cons c p
      rw [hm, List.cons_append]
      have hle : rustLenUtf8 c ≤ m + 1 := by omega
      have hsub : m + 1 - rustLenUtf8 c = utf8Length p := by omega
      simp only [dropBytes, if_pos hle, hsub, ih s]

/-- Rust `TextInput::cursor_offset` (picker.rs lines 135-141). -/
def TextInput.cursor_offset (s : TextInput) : Nat :=
  if s.selection_reversed then s.selected_range.1 else s.selected_range.2

/-- Rust `TextInput::move_to` (picker.rs lines 130-133): collapse the
selection to `offset..offset` (no clamping). -/
def TextInput.move_to (offset : Nat) (s : TextInput) : TextInput :=
  { s with selected_range := (offset, offset) }

/-- Rust `TextInput::select_to` (picker.rs lines 161-172): move the
active (non-anchored) bound to `offset`, swapping the bounds and the
reversed flag when they cross. -/
def TextInput.select_to (offset : Nat) (s : TextInput) : TextInput :=
  let r := if s.selection_reversed then (offset, s.selected_range.2)
           else (s.selected_range.1, offset)
  if r.2 < r.1 then
    { content := s.content, selected_range := (r.2, r.1),
      selection_reversed := !s.selection_reversed }
  else
    { content := s.content, selected_range := r,
      selection_reversed := s.selection_reversed }

/-- Rust `TextInput::left` (picker.rs lines 65-71), with the grapheme
segmentation function `seg` standing for `unicode_segmentation`. -/
def TextInput.left (seg : List Char → List (List Char)) (s : TextInput) : TextInput :=
  if ¬ s.selected_range.1 < s.selected_range.2 then
    TextInput.move_to (previous_boundary (seg s.content) s.cursor_offset) s
  else
    TextInput.move_to s.selected_range.1 s

/-- Rust `TextInput::right` (picker.rs lines 73-79). -/
def TextInput.right (seg : List Char → List (List Char)) (s : TextInput) : TextInput :=
  if ¬ s.selected_range.1 < s.selected_range.2 then
    TextInput.move_to (next_boundary (seg s.content) s.selected_range.2) s
  else
    TextInput.move_to s.selected_range.2 s

/-- Rust `TextInput::select_all` (picker.rs lines 81-84). -/
def TextInput.select_all (s : TextInput) : TextInput :=
  TextInput.select_to (utf8Length s.content) (TextInput.move_to 0 s)

/-- Rust `TextInput::replace_text_in_range` (picker.rs lines 263-280):
the replacement range arrives in UTF-16 units (or defaults to the
current selection in bytes), the text is spliced, and the caret
collapses to just after the inserted text. -/
def TextInput.replace_text_in_range (range_utf16 : Option (Nat × Nat))
    (new_text : List Char) (s : TextInput) : Option TextInput :=
  let range := match range_utf16 with
    | some ru => (offset_from_utf16 s.content ru.1, offset_from_utf16 s.content ru.2)
    | none => s.selected_range
  match takeBytes s.content range.1, dropBytes s.content range.2 with
  | some pre, some suf =>
      some { content := pre ++ new_text ++ suf,
             selected_range := (range.1 + utf8Length new_text, range.1 + utf8Length new_text),
             selection_reversed := s.selection_reversed }
  | _, _ => none

/-- Rust `TextInput::replace_and_mark_text_in_range` (picker.rs lines
282-305): as `replace_text_in_range`, except an explicit new selection
may be supplied in UTF-16 units; the source converts it against the
updated content and then offsets its start by `range.start` but its end
by `range.end`. -/
def TextInput.replace_and_mark_text_in_range (range_utf16 : Option (Nat × Nat))
    (new_text : List Char) (new_selected_range_utf16 : Option (Nat × Nat))
    (s : TextInput) : Option TextInput :=
  let range := match range_utf16 with
    | some ru => (offset_from_utf16 s.content ru.1, offset_from_utf16 s.content ru.2)
    | none => s.selected_range
  match takeBytes s.content range.1, dropBytes s.content range.2 with
  | some pre, some suf =>
      let content2 := pre ++ new_text ++ suf
      let sel := match new_selected_range_utf16 with
        | some nu => (offset_from_utf16 content2 nu.1 + range.1,
                      offset_from_utf16 content2 nu.2 + range.2)
        | none => (range.1 + utf8Length new_text, range.1 + utf8Length new_text)
      some { content := content2, selected_range := sel,
             selection_reversed := s.selection_reversed }
  | _, _ => none

/-- Rust `TextInput::backspace` (picker.rs lines 86-91): extend an empty
selection one grapheme to the left, then delete the selection. -/
def TextInput.backspace (seg : List Char → List (List Char)) (s : TextInput) :
    Option TextInput :=
  let s1 := if ¬ s.selected_range.1 < s.selected_range.2 then
      TextInput.select_to (previous_boundary (seg s.content) s.cursor_offset) s
    else s
  TextInput.replace_text_in_range none [] s1

/-- Rust `TextInput::delete` (picker.rs lines 93-98): extend an empty
selection one grapheme to the right, then delete the selection. -/
def TextInput.delete (seg : List Char → List (List Char)) (s : TextInput) :
    Option TextInput :=
  let s1 := if ¬ s.selected_range.1 < s.selected_range.2 then
      TextInput.select_to (next_boundary (seg s.content) s.cursor_offset) s
    else s
  TextInput.replace_text_in_range none [] s1

theorem offset_from_utf16_aux_boundary (l : List Char) :
    ∀ (off u8 u16 : Nat), ∃ p s, l = p ++ s ∧
      offset_from_utf16_aux l off u8 u16 = u8 + utf8Length p := by
  induction l with
  | nil =>
      intro off u8 u16
      exact ⟨[], [], rfl, by simp [offset_from_utf16_aux]⟩
  | cons c t ih =>
      intro off u8 u16
      by_cases h : off ≤ u16
      · exact ⟨[], c :: t, rfl, by simp [offset_from_utf16_aux, if_pos h]⟩
      · obtain ⟨p, s, hps, hv⟩ := ih off (u8 + rustLenUtf8 c) (u16 + rustLenUtf16 c)
        refine ⟨c :: p, s, by rw [List.cons_append, ← hps], ?_⟩
        simp only [offset_from_utf16_aux, if_neg h, hv, utf8Length_cons]
        omega

/-- Every offset `offset_from_utf16` produces is a valid char boundary
of the content (in particular it lies in `[0, content.len()]`): the scan
stops only between chars and never past the end. -/
theorem offset_from_utf16_isBoundary (l : List Char) (off : Nat) :
    IsCharBoundary l (offset_from_utf16 l off) := by
  obtain ⟨p, s, hps, hv⟩ := offset_from_utf16_aux_boundary l off 0 0
  exact ⟨p, s, hps, by simpa using hv⟩

theorem offset_from_utf16_le (l : List Char) (off : Nat) :
    offset_from_utf16 l off ≤ utf8Length l := by
  obtain ⟨p, s, hps, hv⟩ := offset_from_utf16_isBoundary l off
  subst hps
  rw [hv, utf8Length_append]
  omega

theorem takeBytes_of_boundary {l : List Char} {n : Nat} (h : IsCharBoundary l n) :
    ∃ p, takeBytes l n = some p := by
  obtain ⟨p, s, rfl, rfl⟩ := h
  exact ⟨p, takeBytes_boundary p s⟩

theorem dropBytes_of_boundary {l : List Char} {n : Nat} (h : IsCharBoundary l n) :
    ∃ s, dropBytes l n = some s := by
  obtain ⟨p, s, rfl, rfl⟩ := h
  exact ⟨s, dropBytes_boundary p s⟩

/-- Claim C5: offsets arriving through the UTF-16 interface are clamped
into `[0, content.len()]` before use (`offset_from_utf16` of any input,
however large, is a char boundary no greater than the content length),
and therefore the range-consuming operations
`replace_text_in_range` / `replace_and_mark_text_in_range` on any
UTF-16-supplied range splice without panicking. -/
theorem C5_offsets_clamped_no_panic (s : TextInput) (u : Nat) (r : Nat × Nat)
    (t : List Char) (ns : Option (Nat × Nat)) :
    offset_from_utf16 s.content u ≤ utf8Length s.content ∧
      (TextInput.replace_text_in_range (some r) t s).isSome = true ∧
      (TextInput.replace_and_mark_text_in_range (some r) t ns s).isSome = true := by
  obtain ⟨p1, hp1⟩ := takeBytes_of_boundary (offset_from_utf16_isBoundary s.content r.1)
  obtain ⟨s2, hs2⟩ := dropBytes_of_boundary (offset_from_utf16_isBoundary s.content r.2)
  refine ⟨offset_from_utf16_le s.content u, ?_, ?_⟩
  · simp only [TextInput.replace_text_in_range, hp1, hs2]
    rfl
  · simp only [TextInput.replace_and_mark_text_in_range, hp1, hs2]
    rfl

/-- Claim C2, code behaviour at a failing input: on content "ab",
replacing the UTF-16 range [0,2) with "c" while requesting the new
selection [0,1) (relative to the inserted text) yields
`selected_range = (0, 3)` — the end bound is offset by `range.end = 2`
instead of `range.start = 0` — which even exceeds the new content length
1, instead of the `(0, 1)` the specification requires. -/
theorem C2_replace_and_mark_end_offset_bug :
    TextInput.replace_and_mark_text_in_range (some (0, 2)) ("c".toList) (some (0, 1))
        { content := "ab".toList, selected_range := (0, 0), selection_reversed := false }
      = some { content := "c".toList, selected_range := (0, 3),
               selection_reversed := false }
    ∧ ¬ (3 ≤ utf8Length ("c".toList)) := by
  constructor
  · rfl
  · decide

theorem graphemeIndicesAux_append (a b : List (List Char)) :
    ∀ acc, graphemeIndicesAux (a ++ b) acc
      = graphemeIndicesAux a acc ++ graphemeIndicesAux b (acc + utf8Length (flattenL a)) := by
  induction a with
  | nil => intro acc; simp [graphemeIndicesAux]
  | cons g a ih =>
      intro acc
      simp only [List.cons_append, graphemeIndicesAux, flattenL_cons, utf8Length_append,
        List.append_eq]
      rw [ih (acc + utf8Length g), Nat.add_assoc]

theorem le_of_mem_graphemeIndicesAux (gs : List (List Char)) :
    ∀ acc y, y ∈ graphemeIndicesAux gs acc → acc ≤ y := by
  induction gs with
  | nil => intro acc y h; simp [graphemeIndicesAux] at h
  | cons g gs ih =>
      intro acc y h
      simp only [graphemeIndicesAux, List.mem_cons] at h
      rcases h with rfl | h
      · exact Nat.le_refl y
      · have := ih (acc + utf8Length g) y h; omega

theorem lt_of_mem_graphemeIndicesAux (gs : List (List Char)) :
    ∀ acc y, (∀ g ∈ gs, g ≠ []) → y ∈ graphemeIndicesAux gs acc →
      y < acc + utf8Length (flattenL gs) := by
  induction gs with
  | nil => intro acc y _ h; simp [graphemeIndicesAux] at h
  | cons g gs ih =>
      intro acc y hne h
      have hg : 1 ≤ utf8Length g := utf8Length_pos_of_ne_nil (hne g (by simp))
      simp only [graphemeIndicesAux, List.mem_cons] at h
      rcases h with rfl | h
      · simp only [flattenL_cons, utf8Length_append]; omega
      · have := ih (acc + utf8Length g) y (fun g' hg' => hne g' (by simp [hg'])) h
        simp only [flattenL_cons, utf8Length_append]; omega

theorem mem_graphemeIndicesAux_decomp (gs : List (List Char)) :
    ∀ acc y, y ∈ graphemeIndicesAux gs acc →
      ∃ s1 g s2, gs = s1 ++ g :: s2 ∧ y = acc + utf8Length (flattenL s1) := by
  induction gs with
  | nil => intro acc y h; simp [graphemeIndicesAux] at h
  | cons g gs ih =>
      intro acc y h
      simp only [graphemeIndicesAux, List.mem_cons] at h
      rcases h with rfl | h
      · exact ⟨[], g, gs, rfl, by simp⟩
      · obtain ⟨s1, g', s2, hgs, hy⟩ := ih (acc + utf8Length g) y h
        refine ⟨g :: s1, g', s2, by rw [hgs]; rfl, ?_⟩
        rw [hy, flattenL_cons, utf8Length_append]; omega

theorem find?_append_of_all_false {p : Nat → Bool} (l1 l2 : List Nat)
    (h : ∀ a ∈ l1, p a = false) : (l1 ++ l2).find? p = l2.find? p := by
  induction l1 with
  | nil => rfl
  | cons a l ih =>
      have ha : p a = false := h a (by simp)
      simp only [List.cons_append, List.find?, ha]
      exact ih (fun b hb => h b (by simp [hb]))

/-- Claim C7 amended: moving left and then right returns to the original
offset for every grapheme-cluster boundary x with 0 < x (from x = 0 a
left move is clamped to 0, so the round trip instead lands on the
following boundary).  Quantified over every segmentation into nonempty
clusters, hence over the `unicode_segmentation` clusters of every
string. -/
theorem C7_left_right_round_trip (gs : List (List Char))
    (hne : ∀ g ∈ gs, g ≠ []) (x : Nat) (hx : IsGraphemeBoundary gs x)
    (hpos : 0 < x) :
    next_boundary gs (previous_boundary gs x) = x := by
  rcases hx with hx | hx
  · -- x starts some cluster that is not the first
    rw [graphemeIndices] at hx
    obtain ⟨s1, g, s2, hgs, hx1⟩ := mem_graphemeIndicesAux_decomp gs 0 x hx
    rw [Nat.zero_add] at hx1
    have hs1ne : s1 ≠ [] := by
      intro h0; rw [h0] at hx1; simp at hx1; omega
    obtain ⟨s1', g0, hs1⟩ := (List.eq_nil_or_concat s1).resolve_left hs1ne
    rw [List.concat_eq_append] at hs1
    have hg0 : 1 ≤ utf8Length g0 :=
      utf8Length_pos_of_ne_nil (hne g0 (by rw [hgs, hs1]; simp))
    have hxb : x = utf8Length (flattenL s1') + utf8Length g0 := by
      rw [hx1, hs1, flattenL_append, utf8Length_append]; simp
    set b := utf8Length (flattenL s1') with hbdef
    have hblt : b < x := by omega
    have h2 : graphemeIndicesAux (g0 :: g :: s2) b
        = b :: x :: graphemeIndicesAux s2 (x + utf8Length g) := by
      simp only [graphemeIndicesAux]
      rw [← hxb]
    have hidx : graphemeIndices gs
        = graphemeIndicesAux s1' 0 ++ b :: x :: graphemeIndicesAux s2 (x + utf8Length g) := by
      rw [graphemeIndices, hgs, hs1]
      have e : (s1' ++ [g0]) ++ g :: s2 = s1' ++ g0 :: g :: s2 := by simp
      rw [e, graphemeIndicesAux_append s1' (g0 :: g :: s2) 0, Nat.zero_add, h2]
    have hA : ∀ y ∈ graphemeIndicesAux s1' 0, y < b := by
      intro y hy
      have := lt_of_mem_graphemeIndicesAux s1' 0 y
        (fun g' hg' => hne g' (by rw [hgs, hs1]; simp [hg'])) hy
      omega
    have hR : ∀ y ∈ graphemeIndicesAux s2 (x + utf8Length g), x ≤ y := by
      intro y hy
      have := le_of_mem_graphemeIndicesAux s2 (x + utf8Length g) y hy
      omega
    have hprev : previous_boundary gs x = b := by
      rw [previous_boundary, hidx]
      have hrev : (graphemeIndicesAux s1' 0
            ++ b :: x :: graphemeIndicesAux s2 (x + utf8Length g)).reverse
          = ((graphemeIndicesAux s2 (x + utf8Length g)).reverse ++ [x])
            ++ b :: (graphemeIndicesAux s1' 0).reverse := by
        simp
      rw [hrev, find?_append_of_all_false]
      · rw [List.find?_cons_of_pos _ (by simpa using hblt)]
        rfl
      · intro a ha
        simp only [List.mem_append, List.mem_reverse, List.mem_singleton] at ha
        simp only [decide_eq_false_iff_not, Nat.not_lt]
        rcases ha with ha | rfl
        · exact hR a ha
        · exact Nat.le_refl _
    have hnext : next_boundary gs b = x := by
      rw [next_boundary, hidx]
      have hgrp : graphemeIndicesAux s1' 0
            ++ b :: x :: graphemeIndicesAux s2 (x + utf8Length g)
          = (graphemeIndicesAux s1' 0 ++ [b])
            ++ x :: graphemeIndicesAux s2 (x + utf8Length g) := by
        simp
      rw [hgrp, find?_append_of_all_false]
      · rw [List.find?_cons_of_pos _ (by simpa using hblt)]
        rfl
      · intro a ha
        simp only [List.mem_append, List.mem_singleton] at ha
        simp only [decide_eq_false_iff_not, Nat.not_lt]
        rcases ha with ha | rfl
        · exact Nat.le_of_lt (hA a ha)
        · exact Nat.le_refl _
    rw [hprev, hnext]
  · -- x is the end of the content
    have hgsne : gs ≠ [] := by
      intro h0; rw [h0] at hx; simp at hx; omega
    obtain ⟨s1', g0, hs1⟩ := (List.eq_nil_or_concat gs).resolve_left hgsne
    rw [List.concat_eq_append] at hs1
    have hg0 : 1 ≤ utf8Length g0 :=
      utf8Length_pos_of_ne_nil (hne g0 (by rw [hs1]; simp))
    have hxb : x = utf8Length (flattenL s1') + utf8Length g0 := by
      rw [hx, hs1, flattenL_append, utf8Length_append]; simp
    set b := utf8Length (flattenL s1') with hbdef
    have hblt : b < x := by omega
    have hidx : graphemeIndices gs = graphemeIndicesAux s1' 0 ++ [b] := by
      rw [graphemeIndices, hs1, graphemeIndicesAux_append s1' [g0] 0, Nat.zero_add]
      rfl
    have hA : ∀ y ∈ graphemeIndicesAux s1' 0, y < b := by
      intro y hy
      have := lt_of_mem_graphemeIndicesAux s1' 0 y
        (fun g' hg' => hne g' (by rw [hs1]; simp [hg'])) hy
      omega
    have hprev : previous_boundary gs x = b := by
      rw [previous_boundary, hidx]
      have hrev : (graphemeIndicesAux s1' 0 ++ [b]).reverse
          = b :: (graphemeIndicesAux s1' 0).reverse := by simp
      rw [hrev, List.find?_cons_of_pos _ (by simpa using hblt)]
      rfl
    have hnext : next_boundary gs b = x := by
      rw [next_boundary, hidx]
      have hnone : (graphemeIndicesAux s1' 0 ++ [b]).find? (fun idx => decide (b < idx))
          = none := by
        rw [List.find?_eq_none]
        intro a ha
        simp only [List.mem_append, List.mem_singleton] at ha
        simp only [decide_eq_true_eq, Nat.not_lt]
        rcases ha with ha | rfl
        · exact Nat.le_of_lt (hA a ha)
        · exact Nat.le_refl _
      rw [hnone, Option.getD_none]
      exact hx.symm
    rw [hprev, hnext]

/-- Counterexample to claim C7 as stated: on the content "ab" (whose
extended grapheme clusters are exactly "a" and "b"), 0 is a grapheme
boundary, yet moving left then right from 0 lands on 1, not back on 0. -/
theorem C7_round_trip_fails_at_zero :
    IsGraphemeBoundary [['a'], ['b']] 0 ∧
      next_boundary [['a'], ['b']] (previous_boundary [['a'], ['b']] 0) = 1 ∧
      (1 : Nat) ≠ 0 := by
  decide

/-- Witness for the amended C7 on the content "ab" at the boundary 1. -/
theorem C7_left_right_round_trip_witness :
    (∀ g ∈ [['a'], ['b']], g ≠ []) ∧ IsGraphemeBoundary [['a'], ['b']] 1 ∧ 0 < 1 ∧
      next_boundary [['a'], ['b']] (previous_boundary [['a'], ['b']] 1) = 1 :=
  ⟨by decide, by decide, by decide,
    C7_left_right_round_trip [['a'], ['b']] (by decide) 1 (by decide) (by decide)⟩

theorem le_offset_from_utf16_aux (l : List Char) :
    ∀ off u8 u16, u8 ≤ offset_from_utf16_aux l off u8 u16 := by
  induction l with
  | nil => intro off u8 u16; exact Nat.le_refl _
  | cons c t ih =>
      intro off u8 u16
      simp only [offset_from_utf16_aux]
      split
      · exact Nat.le_refl _
      · have := ih off (u8 + rustLenUtf8 c) (u16 + rustLenUtf16 c); omega

theorem offset_from_utf16_aux_mono (l : List Char) :
    ∀ a b u8 u16, a ≤ b →
      offset_from_utf16_aux l a u8 u16 ≤ offset_from_utf16_aux l b u8 u16 := by
  induction l with
  | nil => intro a b u8 u16 _; exact Nat.le_refl _
  | cons c t ih =>
      intro a b u8 u16 hab
      simp only [offset_from_utf16_aux]
      by_cases hb : b ≤ u16
      · rw [if_pos hb, if_pos (Nat.le_trans hab hb)]
      · rw [if_neg hb]
        by_cases ha : a ≤ u16
        · rw [if_pos ha]
          have h1 := le_offset_from_utf16_aux t b (u8 + rustLenUtf8 c) (u16 + rustLenUtf16 c)
          omega
        · rw [if_neg ha]
          exact ih a b (u8 + rustLenUtf8 c) (u16 + rustLenUtf16 c) hab

/-- The UTF-16 to byte offset conversion is monotone. -/
theorem offset_from_utf16_mono (l : List Char) {a b : Nat} (h : a ≤ b) :
    offset_from_utf16 l a ≤ offset_from_utf16 l b :=
  offset_from_utf16_aux_mono l a b 0 0 h

theorem move_to_sel_le (offset : Nat) (s : TextInput) :
    (TextInput.move_to offset s).selected_range.1
      ≤ (TextInput.move_to offset s).selected_range.2 :=
  Nat.le_refl _

theorem select_to_sel_le (offset : Nat) (s : TextInput) :
    (TextInput.select_to offset s).selected_range.1
      ≤ (TextInput.select_to offset s).selected_range.2 := by
  simp only [TextInput.select_to]
  split <;> split <;> simp_all <;> omega

theorem replace_text_in_range_sel_eq {r? : Option (Nat × Nat)} {t : List Char}
    {s s' : TextInput} (h : TextInput.replace_text_in_range r? t s = some s') :
    s'.selected_range.1 = s'.selected_range.2 := by
  simp only [TextInput.replace_text_in_range] at h
  split at h
  · injection h with h
    rw [← h]
  · exact Option.noConfusion h

theorem replace_and_mark_sel_le {t : List Char} {s s' : TextInput} :
    ∀ (r? ns? : Option (Nat × Nat)),
      s.selected_range.1 ≤ s.selected_range.2 →
      (∀ ru, r? = some ru → ru.1 ≤ ru.2) →
      (∀ nu, ns? = some nu → nu.1 ≤ nu.2) →
      TextInput.replace_and_mark_text_in_range r? t ns? s = some s' →
      s'.selected_range.1 ≤ s'.selected_range.2 := by
  intro r? ns? hs hr hn h
  rcases r? with _ | ru
  · rcases ns? with _ | nu
    · simp only [TextInput.replace_and_mark_text_in_range] at h
      split at h
      · injection h with h; rw [← h]
      · exact Option.noConfusion h
    · simp only [TextInput.replace_and_mark_text_in_range] at h
      split at h
      · injection h with h; rw [← h]
        exact Nat.add_le_add (offset_from_utf16_mono _ (hn nu rfl)) hs
      · exact Option.noConfusion h
  · rcases ns? with _ | nu
    · simp only [TextInput.replace_and_mark_text_in_range] at h
      split at h
      · injection h with h; rw [← h]
      · exact Option.noConfusion h
    · simp only [TextInput.replace_and_mark_text_in_range] at h
      split at h
      · injection h with h; rw [← h]
        exact Nat.add_le_add (offset_from_utf16_mono _ (hn nu rfl))
          (offset_from_utf16_mono _ (hr ru rfl))
      · exact Option.noConfusion h

/- One step of the TextInput state machine: any of the motion, selection
and replacement operations the claims quantify over, with arbitrary
arguments.  Replacement steps exist only when the source would not panic
(the `Option` is `some`); the explicit ranges of
`replace_and_mark_text_in_range` are required to be well-formed
(start ≤ end), as every caller of the IME protocol supplies. -/

inductive TStep (seg : List Char → List (List Char)) : TextInput → TextInput → Prop where
  | left_step (s : TextInput) : TStep seg s (TextInput.left seg s)
  | right_step (s : TextInput) : TStep seg s (TextInput.right seg s)
  | select_all_step (s : TextInput) : TStep seg s (TextInput.select_all s)
  | move_to_step (s : TextInput) (offset : Nat) : TStep seg s (TextInput.move_to offset s)
  | select_to_step (s : TextInput) (offset : Nat) : TStep seg s (TextInput.select_to offset s)
  | backspace_step (s s' : TextInput) (h : TextInput.backspace seg s = some s') :
      TStep seg s s'
  | delete_step (s s' : TextInput) (h : TextInput.delete seg s = some s') : TStep seg s s'
  | replace_step (s s' : TextInput) (range_utf16 : Option (Nat × Nat)) (new_text : List Char)
      (h : TextInput.replace_text_in_range range_utf16 new_text s = some s') : TStep seg s s'
  | replace_mark_step (s s' : TextInput) (range_utf16 ns_utf16 : Option (Nat × Nat))
      (new_text : List Char)
      (hr : ∀ ru, range_utf16 = some ru → ru.1 ≤ ru.2)
      (hn : ∀ nu, ns_utf16 = some nu → nu.1 ≤ nu.2)
      (h : TextInput.replace_and_mark_text_in_range range_utf16 new_text ns_utf16 s = some s') :
      TStep seg s s'

theorem TStep_preserves_sel_le {seg : List Char → List (List Char)} {s s' : TextInput}
    (hs : s.selected_range.1 ≤ s.selected_range.2) (h : TStep seg s s') :
    s'.selected_range.1 ≤ s'.selected_range.2 := by
  cases h with
  | left_step =>
      unfold TextInput.left
      split
      · exact move_to_sel_le _ _
      · exact move_to_sel_le _ _
  | right_step =>
      unfold TextInput.right
      split
      · exact move_to_sel_le _ _
      · exact move_to_sel_le _ _
  | select_all_step => exact select_to_sel_le _ _
  | move_to_step offset => exact move_to_sel_le _ _
  | select_to_step offset => exact select_to_sel_le _ _
  | backspace_step s2 h =>
      unfold TextInput.backspace at h
      exact Nat.le_of_eq (replace_text_in_range_sel_eq h)
  | delete_step s2 h =>
      unfold TextInput.delete at h
      exact Nat.le_of_eq (replace_text_in_range_sel_eq h)
  | replace_step s2 r t h => exact Nat.le_of_eq (replace_text_in_range_sel_eq h)
  | replace_mark_step s2 r ns t hr hn h => exact replace_and_mark_sel_le r ns hs hr hn h

/-- Claim C4 amended: after any sequence of the listed operations from
the initial state, `selected_range.start ≤ selected_range.end` holds
(with the explicit ranges supplied to `replace_and_mark_text_in_range`
well-formed).  The claimed upper bound `end ≤ content.len()` and the
grapheme-boundary alignment of the bounds do not hold in general —
`move_to` and `select_to` do not clamp their byte offset (see the
counterexample) — so only the ordering part of the invariant survives. -/
theorem C4_selection_invariant (seg : List Char → List (List Char)) (s : TextInput)
    (h : Relation.ReflTransGen (TStep seg) TextInput.new s) :
    s.selected_range.1 ≤ s.selected_range.2 := by
  induction h with
  | refl => exact Nat.le_refl 0
  | tail _ hstep ih => exact TStep_preserves_sel_le ih hstep

/-- Counterexample to claim C4 as stated: a single `move_to 5` on the
freshly constructed (empty) input is a legal operation sequence, yet it
leaves `selected_range = (5, 5)` with 5 > content.len() = 0 — and 5 is
not a grapheme boundary of the empty content either, since `move_to`
performs no clamping. -/
theorem C4_selection_invariant_counterexample :
    Relation.ReflTransGen (TStep asciiSeg) TextInput.new
        { content := [], selected_range := (5, 5), selection_reversed := false }
      ∧ ¬ (5 ≤ utf8Length ([] : List Char)) := by
  constructor
  · exact Relation.ReflTransGen.single (TStep.move_to_step TextInput.new 5)
  · decide

/-- Witness for the amended C4 along the one-step execution
`select_to 5` from the initial state. -/
theorem C4_selection_invariant_witness :
    (TextInput.select_to 5 TextInput.new).selected_range.1
      ≤ (TextInput.select_to 5 TextInput.new).selected_range.2 :=
  C4_selection_invariant asciiSeg (TextInput.select_to 5 TextInput.new)
    (Relation.ReflTransGen.single (TStep.select_to_step TextInput.new 5))

/- The picker component (picker.rs lines 529-708).  The model keeps the
fields the claims are about: the candidate universe, the committed
filtered result and the selection index, plus the shared dispatch
counter for the staleness protocol. -/

/-- A per-character lowercase mapping standing for Rust's
`str::to_lowercase`; the filter claims do not depend on the particular
case table, only on the filter structure, and the concrete instances
below use ASCII where the two agree. -/
def lowerStr (l : List Char) : List Char := l.map Char.toLower

/-- Whether `needle` occurs at the front of `hay`. -/
def startsWith : List Char → List Char → Bool
  | _, [] => true
  | [], _ :: _ => false
  | c :: cs, d :: ds => c == d && startsWith cs ds

/-- Whether `needle` occurs contiguously anywhere in `hay`, as Rust's
`str::contains` with a string pattern. -/
def containsSub : List Char → List Char → Bool
  | [], needle => needle.isEmpty
  | c :: cs, needle => startsWith (c :: cs) needle || containsSub cs needle

/-- The background unit of work of `check_and_update_search` (picker.rs
lines 634-652): an already-cancelled search returns the empty result;
otherwise an empty query returns all candidates and a nonempty
(pre-lowercased) query keeps exactly the items whose lowercase form
contains it. -/
def backgroundFilter (cancelled : Bool) (query : List Char)
    (all_items : List (List Char)) : List (List Char) :=
  if cancelled then []
  else if query.isEmpty then all_items
  else all_items.filter (fun item => containsSub (lowerStr item) query)

/-- Claim C6: for every candidate list and query, the (uncancelled)
background filter returns the full candidate sequence in original order
when the query is empty, and otherwise exactly the subsequence of
candidates whose lowercase form contains the query, in original relative
order (a stable filter — the result is a sublist of the input). -/
theorem C6_background_filter (query : List Char) (items : List (List Char)) :
    (query = [] → backgroundFilter false query items = items) ∧
      (query ≠ [] → backgroundFilter false query items
        = items.filter (fun item => containsSub (lowerStr item) query)) ∧
      List.Sublist (backgroundFilter false query items) items := by
  refine ⟨?_, ?_, ?_⟩
  · intro hq
    simp [backgroundFilter, hq]
  · intro hq
    simp [backgroundFilter, List.isEmpty_iff, hq]
  · simp only [backgroundFilter, Bool.false_eq_true, if_false]
    split
    · exact List.Sublist.refl items
    · exact List.filter_sublist items

/-- Witness for C6: with candidates ["apple", "banana", "grape"] and
query "an", exactly "banana" survives. -/
theorem C6_background_filter_witness :
    backgroundFilter false ("an".toList)
        ["apple".toList, "banana".toList, "grape".toList]
      = ["banana".toList] := by
  have h := (C6_background_filter ("an".toList)
      ["apple".toList, "banana".toList, "grape".toList]).2.1 (by decide)
  rw [h]
  decide

/-- The list/selection model of `PickerExample`. -/
structure PickerState where
  all_items : List (List Char)
  filtered_items : List (List Char)
  selected_index : Nat
deriving DecidableEq

/-- Rust `PickerExample::select_next` (picker.rs lines 676-681). -/
def select_next (s : PickerState) : PickerState :=
  if s.filtered_items.isEmpty then s
  else { s with selected_index := (s.selected_index + 1) % s.filtered_items.length }

/-- Rust `PickerExample::select_prev` (picker.rs lines 683-692). -/
def select_prev (s : PickerState) : PickerState :=
  if s.filtered_items.isEmpty then s
  else if s.selected_index = 0 then
    { s with selected_index := s.filtered_items.length - 1 }
  else
    { s with selected_index := s.selected_index - 1 }

/-- Rust `PickerExample::confirm` (picker.rs lines 694-698): read the
item at the selected index, if any (the externally visible yield), and
leave the state untouched. -/
def confirm (s : PickerState) : Option (List Char) × PickerState :=
  (s.filtered_items[s.selected_index]?, s)

/-- Claim C8: on a nonempty list `select_next` advances the index by one
modulo the length and `select_prev` wraps from 0 to length - 1 and
otherwise decrements; on an empty list both are no-ops. -/
theorem C8_wraparound_selection (s : PickerState) :
    (s.filtered_items = [] → select_next s = s ∧ select_prev s = s) ∧
      (s.filtered_items ≠ [] →
        (select_next s).selected_index = (s.selected_index + 1) % s.filtered_items.length ∧
          (select_prev s).selected_index
            = if s.selected_index = 0 then s.filtered_items.length - 1
              else s.selected_index - 1) := by
  constructor
  · intro hempty
    simp [select_next, select_prev, hempty]
  · intro hne
    have h : s.filtered_items.isEmpty = false := by
      simp [List.isEmpty_iff, hne]
    constructor
    · simp [select_next, h]
    · by_cases h0 : s.selected_index = 0 <;> simp [select_prev, h, h0]

/-- Witness for C8: from index 0 on a 5-element list, five `select_next`
calls return to index 0 and one `select_prev` call yields index 4. -/
theorem C8_wraparound_selection_witness :
    (select_next (select_next (select_next (select_next (select_next
          { all_items := [], filtered_items := [['a'], ['b'], ['c'], ['d'], ['e']],
            selected_index := 0 }))))).selected_index = 0 ∧
      (select_prev
          { all_items := [], filtered_items := [['a'], ['b'], ['c'], ['d'], ['e']],
            selected_index := 0 }).selected_index = 4 := by
  constructor
  · decide
  · have h := (C8_wraparound_selection
        { all_items := [], filtered_items := [['a'], ['b'], ['c'], ['d'], ['e']],
          selected_index := 0 }).2 (by decide)
    rw [h.2]
    decide

/-- Claim C9: `confirm` yields nothing on an empty filtered list and
never mutates the model state. -/
theorem C9_confirm_no_op (s : PickerState) :
    (confirm s).2 = s ∧ (s.filtered_items = [] → (confirm s).1 = none) := by
  constructor
  · rfl
  · intro h
    simp [confirm, h]

/-- Witness for C9 on the empty-list state. -/
theorem C9_confirm_no_op_witness :
    (confirm { all_items := [], filtered_items := [], selected_index := 0 }).2
        = { all_items := [], filtered_items := [], selected_index := 0 } ∧
      (confirm { all_items := [], filtered_items := [], selected_index := 0 }).1 = none :=
  ⟨(C9_confirm_no_op _).1, (C9_confirm_no_op _).2 rfl⟩

/-- The sample candidate universe built in `PickerExample::new`
(picker.rs lines 554-588). -/
def all_items_init : List (List Char) :=
  ["src/main.rs", "src/lib.rs", "src/components/button.rs",
    "src/components/input.rs", "src/components/list.rs",
    "src/utils/helpers.rs", "src/utils/formatting.rs",
    "tests/integration_test.rs", "tests/unit_test.rs", "Cargo.toml",
    "Cargo.lock", "README.md", "LICENSE", "docs/getting_started.md",
    "docs/api_reference.md", "examples/basic.rs", "examples/advanced.rs",
    "benches/performance.rs", "assets/styles.css", "assets/logo.png",
    "config/settings.json", "config/database.yml", "scripts/build.sh",
    "scripts/deploy.sh", "src/models/user.rs", "src/models/post.rs",
    "src/views/home.rs", "src/views/profile.rs", "src/controllers/auth.rs",
    "src/controllers/api.rs"].map String.toList

/-- Rust `PickerExample::new` (picker.rs lines 590-601), projected onto
the list/selection model: `filtered_items` starts as a clone of
`all_items` and the selection at 0. -/
def PickerExample_new : PickerState :=
  { all_items := all_items_init, filtered_items := all_items_init,
    selected_index := 0 }

/-- Claim C10: at construction, before any search is dispatched, the
filtered list equals the full candidate universe (same list, same
order) and the selected index is 0. -/
theorem C10_initial_state :
    PickerExample_new.filtered_items = PickerExample_new.all_items ∧
      PickerExample_new.selected_index = 0 :=
  ⟨rfl, rfl⟩

/- The staleness protocol of `check_and_update_search` (picker.rs lines
604-674).  A dispatch increments the shared counter (`fetch_add`, the
search taking the pre-increment value as its id); a completion runs the
staleness check and commit as one atomic step, faithful to the source
where both happen inside a single foreground task with no await between
the counter read and the state update.  `committed` is the history of
commits, most recent last, so that monotonicity over time is a statement
about one final state. -/

inductive SearchEvent where
  | dispatch : SearchEvent
  | complete : Nat → List (List Char) → SearchEvent
deriving DecidableEq

structure CoordState where
  search_count : Nat
  filtered_items : List (List Char)
  committed : List (Nat × List (List Char))
deriving DecidableEq

/-- One event of the search coordinator.  A completion is only valid for
an id that was actually dispatched (`id < search_count`).  The commit
condition is the source's: read the counter, let
`latest_started = counter.saturating_sub 1`, and discard unconditionally
when `search_id < latest_started` — the cancellation flag is never
consulted here. -/
def coordStep (s : CoordState) : SearchEvent → Option CoordState
  | SearchEvent.dispatch => some { s with search_count := s.search_count + 1 }
  | SearchEvent.complete id result =>
    if id < s.search_count then
      if id < s.search_count - 1 then some s
      else some { s with filtered_items := result,
                         committed := s.committed ++ [(id, result)] }
    else none

/-- Replay a list of events from a state. -/
def runEvents (s : CoordState) : List SearchEvent → Option CoordState
  | [] => some s
  | e :: es =>
    match coordStep s e with
    | some s2 => runEvents s2 es
    | none => none

/-- The coordinator state at construction: counter 0, nothing committed,
the full candidate list visible. -/
def initCoord : CoordState :=
  { search_count := 0, filtered_items := all_items_init, committed := [] }

/-- The inductive invariant: committed ids are non-decreasing and every
committed id was dispatched. -/
def CoordInv (s : CoordState) : Prop :=
  List.Chain' (fun a b => a ≤ b) (s.committed.map Prod.fst)
    ∧ ∀ y ∈ s.committed.map Prod.fst, y + 1 ≤ s.search_count

theorem mem_of_getLastOpt {α : Type} {l : List α} {x : α} (h : x ∈ l.getLast?) :
    x ∈ l := by
  obtain ⟨hne, rfl⟩ := List.mem_getLast?_eq_getLast h
  exact List.getLast_mem hne

theorem coordStep_preserves {s s' : CoordState} {e : SearchEvent}
    (hs : CoordInv s) (h : coordStep s e = some s') : CoordInv s' := by
  obtain ⟨hc, hb⟩ := hs
  cases e with
  | dispatch =>
      simp only [coordStep] at h
      injection h with h
      rw [← h]
      refine ⟨hc, fun y hy => ?_⟩
      have := hb y hy
      dsimp only
      omega
  | complete id result =>
      simp only [coordStep] at h
      by_cases h1 : id < s.search_count
      · rw [if_pos h1] at h
        by_cases h2 : id < s.search_count - 1
        · rw [if_pos h2] at h
          injection h with h
          rw [← h]
          exact ⟨hc, hb⟩
        · rw [if_neg h2] at h
          injection h with h
          rw [← h]
          constructor
          · simp only [List.map_append, List.map_cons, List.map_nil]
            refine (List.chain'_append).mpr ⟨hc, List.chain'_singleton id, ?_⟩
            intro x hx y hy
            have hxm : x ∈ s.committed.map Prod.fst := mem_of_getLastOpt hx
            have hxc := hb x hxm
            have hyy : id = y := by simpa using hy
            omega
          · intro y hy
            simp only [List.map_append, List.map_cons, List.map_nil,
              List.mem_append, List.mem_singleton] at hy
            rcases hy with hy | rfl
            · have := hb y hy
              dsimp only
              omega
            · dsimp only
              omega
      · rw [if_neg h1] at h
        exact Option.noConfusion h

theorem runEvents_preserves {es : List SearchEvent} :
    ∀ {s s' : CoordState}, CoordInv s → runEvents s es = some s' → CoordInv s' := by
  induction es with
  | nil =>
      intro s s' hs h
      simp only [runEvents] at h
      injection h with h
      rw [← h]
      exact hs
  | cons e es ih =>
      intro s s' hs h
      simp only [runEvents] at h
      cases he : coordStep s e with
      | none => rw [he] at h; exact Option.noConfusion h
      | some s2 => rw [he] at h; exact ih (coordStep_preserves hs he) h

/-- Claim C1: along any execution of the coordinator, a completing
search commits only if its id is at least the latest started id (the
counter value minus one, read at completion); any completion with a
strictly smaller id leaves the state untouched, with no reference to a
cancellation flag, so the ids of committed results are monotonically
non-decreasing over time and a stale result never overwrites a newer
one. -/
theorem C1_stale_results_discarded (es : List SearchEvent) (s : CoordState)
    (h : runEvents initCoord es = some s) :
    List.Chain' (fun a b => a ≤ b) (s.committed.map Prod.fst)
      ∧ ∀ id result, id < s.search_count - 1 →
          coordStep s (SearchEvent.complete id result) = some s := by
  have hinv : CoordInv s :=
    runEvents_preserves (s := initCoord) ⟨List.chain'_nil, by simp [initCoord]⟩ h
  refine ⟨hinv.1, ?_⟩
  intro id result hid
  have h1 : id < s.search_count := by omega
  simp only [coordStep, if_pos h1, if_pos hid]

/-- Witness for C1, the spec's three-search scenario: searches 0, 1, 2
are dispatched; search 2 completes first and commits; search 1 then
completes late and is discarded — its result never becomes visible, and
the committed ids stay monotone. -/
theorem C1_stale_results_discarded_witness :
    runEvents initCoord
        [SearchEvent.dispatch, SearchEvent.dispatch, SearchEvent.dispatch,
          SearchEvent.complete 2 [['x']], SearchEvent.complete 1 [['y']]]
      = some { search_count := 3, filtered_items := [['x']],
               committed := [(2, [['x']])] }
    ∧ List.Chain' (fun a b => a ≤ b)
        (({ search_count := 3, filtered_items := [['x']],
            committed := [(2, [['x']])] } : CoordState).committed.map Prod.fst) := by
  refine ⟨rfl, ?_⟩
  exact (C1_stale_results_discarded
    [SearchEvent.dispatch, SearchEvent.dispatch, SearchEvent.dispatch,
      SearchEvent.complete 2 [['x']], SearchEvent.complete 1 [['y']]]
    { search_count := 3, filtered_items := [['x']], committed := [(2, [['x']])] }
    rfl).1
